import Mathlib

/-!
Shallow embedding of `olm-catalog-browser` (`src/main.rs`): a CLI that reads a
multi-document YAML catalog file, decodes each document into a `CatalogEntry`
(Package / Channel / Bundle, discriminated by the `schema` tag), groups the
entries into three maps, and answers `list` / `show` queries by printing text.

Rust `HashMap` is modelled as an association list (`List (String × _)`);
`HashMap` iteration order is unspecified in Rust, the association list fixes
one concrete order, and no theorem below depends on cross-key order.
Printing is modelled by returning the produced text as a `String`
(each `println!` appends a trailing newline).
-/

set_option autoImplicit false

namespace OlmCatalog

/-- `struct Package { name: String }` from src/main.rs. -/
structure Package where
  name : String
  deriving DecidableEq

/-- `struct ChannelEntry` from src/main.rs: `replaces` and `skips` default to
empty via `#[serde(default)]`; `skip_range` is `Option<String>`. -/
structure ChannelEntry where
  name : String
  replaces : String
  skips : List String
  skip_range : Option String
  deriving DecidableEq

/-- `struct Channel { name, package, entries }` from src/main.rs. -/
structure Channel where
  name : String
  package : String
  entries : List ChannelEntry
  deriving DecidableEq

/-- `struct Bundle { name, image, package }` from src/main.rs. -/
structure Bundle where
  name : String
  image : String
  package : String
  deriving DecidableEq

/-- `enum CatalogEntry` from src/main.rs, tagged by the `schema` field
(`olm.package`, `olm.channel`, `olm.bundle`). -/
inductive CatalogEntry where
  | OlmPackage (pkg : Package)
  | OpmChannel (chan : Channel)
  | OlmBundle (bund : Bundle)
  deriving DecidableEq

/-- `enum ContentType` from src/main.rs (clap value enum). -/
inductive ContentType where
  | Packages
  | Channels
  | Bundles
  | Package
  | Channel
  | Bundle
  deriving DecidableEq

/-- Association-list lookup, modelling `HashMap::get`. -/
def lookupA {α : Type} : List (String × α) → String → Option α
  | [], _ => none
  | (k, v) :: rest, key => if k = key then some v else lookupA rest key

/-- Association-list insert with replacement, modelling `HashMap::insert`
(the value under an existing key is overwritten). -/
def insertA {α : Type} : List (String × α) → String → α → List (String × α)
  | [], key, v => [(key, v)]
  | (k, w) :: rest, key, v =>
    if k = key then (k, v) :: rest else (k, w) :: insertA rest key v

/-- Modelling `map.entry(key).or_default().push(v)`: append `v` to the vector
under `key`, creating a singleton vector if the key is absent. -/
def pushA {α : Type} : List (String × List α) → String → α → List (String × List α)
  | [], key, v => [(key, [v])]
  | (k, l) :: rest, key, v =>
    if k = key then (k, l ++ [v]) :: rest else (k, l) :: pushA rest key v

/-- Lookup of a grouped sequence, with the empty sequence for an absent key. -/
def lookupListA {α : Type} (m : List (String × List α)) (key : String) : List α :=
  (lookupA m key).getD []

/-- The three groupings built by `main` after decoding. -/
structure Groupings where
  packages : List (String × CatalogEntry)
  channels : List (String × List CatalogEntry)
  bundles : List (String × List CatalogEntry)
  deriving DecidableEq

/-- One step of the grouping loop in `main`: classify an entry by variant and
store it into the corresponding map. -/
def addEntry (g : Groupings) (e : CatalogEntry) : Groupings :=
  match e with
  | .OlmPackage pkg => { g with packages := insertA g.packages pkg.name e }
  | .OpmChannel chan => { g with channels := pushA g.channels chan.package e }
  | .OlmBundle bund => { g with bundles := pushA g.bundles bund.package e }

/-- The grouping pass of `main`: iterate the decoded entries once, in
original order, starting from three empty maps. -/
def groupEntries (es : List CatalogEntry) : Groupings :=
  es.foldl addEntry ⟨[], [], []⟩

/-- Rust `Debug` escaping of one character inside a string literal
(`escape_debug`), modelled for the printable subset: backslash, quote,
newline, tab and carriage return are escaped, other characters kept. -/
def debugEscapeChar (c : Char) : String :=
  if c = '\\' then "\\\\"
  else if c = '"' then "\\\""
  else if c = '\n' then "\\n"
  else if c = '\t' then "\\t"
  else if c = '\r' then "\\r"
  else String.singleton c

/-- Rust `Debug` rendering of a `String`: quoted and escaped. -/
def debugStr (s : String) : String :=
  "\"" ++ String.join (s.toList.map debugEscapeChar) ++ "\""

/-- Rust `{:?}` rendering of a `Vec<String>`, e.g. `["a", "b"]`. -/
def debugStrList (l : List String) : String :=
  "[" ++ String.intercalate ", " (l.map debugStr) ++ "]"

/-- Rust `{:#?}` pretty-Debug rendering of a `Package`. -/
def pkgDebug (p : Package) : String :=
  "Package \x7b\n    name: " ++ debugStr p.name ++ ",\n\x7d"

/-- Rust `{:#?}` pretty-Debug rendering of a `Bundle`. -/
def bundleDebug (b : Bundle) : String :=
  "Bundle \x7b\n    name: " ++ debugStr b.name ++ ",\n    image: "
    ++ debugStr b.image ++ ",\n    package: " ++ debugStr b.package ++ ",\n\x7d"

/-- The per-entry part of `impl Display for Channel` in src/main.rs. -/
def entryDisplay (e : ChannelEntry) : String :=
  "\n    - " ++ e.name
    ++ (if e.replaces ≠ "" then "\n      replaces: " ++ e.replaces else "")
    ++ (if e.skips.length > 0 then "\n      skips: " ++ debugStrList e.skips else "")
    ++ (match e.skip_range with
        | some range => "\n      skip_range: " ++ range
        | none => "")

/-- `impl Display for Channel` in src/main.rs. -/
def channelDisplay (c : Channel) : String :=
  "Channel: " ++ c.name ++ "\n  Package: " ++ c.package ++ "\n  Entries:"
    ++ String.join (c.entries.map entryDisplay)

/-- `fn list_handler` from src/main.rs, with the printed text as the result. -/
def listHandler (content_type : ContentType) (g : Groupings) : String :=
  match content_type with
  | .Packages =>
    "Packages:\n" ++ String.join (g.packages.map (fun kv => "- " ++ kv.1 ++ "\n"))
  | .Channels =>
    "Channels:\n" ++ String.join (g.channels.map (fun kv =>
      String.join (kv.2.map (fun e =>
        match e with
        | .OpmChannel chan => "- " ++ chan.name ++ "\n"
        | _ => ""))))
  | .Bundles =>
    "Bundles:\n" ++ String.join (g.bundles.map (fun kv =>
      String.join (kv.2.map (fun e =>
        match e with
        | .OlmBundle bund => "- " ++ bund.name ++ "\n"
        | _ => ""))))
  | _ => "Unsupported content type\n"

/-- `fn show_handler` from src/main.rs, with the printed text as the result. -/
def showHandler (content_type : ContentType) (name : String) (g : Groupings) : String :=
  match content_type with
  | .Package =>
    match lookupA g.packages name with
    | some (.OlmPackage pkg) => pkgDebug pkg ++ "\n"
    | _ => ""
  | .Channel =>
    match lookupA g.channels name with
    | some entries =>
      String.join (entries.map (fun e =>
        match e with
        | .OpmChannel chan => channelDisplay chan ++ "\n"
        | _ => ""))
    | none => ""
  | .Bundle =>
    match lookupA g.bundles name with
    | some entries =>
      String.join (entries.map (fun e =>
        match e with
        | .OlmBundle bund => bundleDebug bund ++ "\n"
        | _ => ""))
    | none => ""
  | _ => "Unsupported content type\n"

/-- The per-document decode loop of `main`: each document is decoded
independently; a success is appended to the entry sequence, a failure adds a
diagnostic line on the error stream and is skipped. The YAML parser itself is
external (`serde_yaml`); a document is modelled by its decode result. -/
def processDocs : List (Except String CatalogEntry) → List CatalogEntry × List String
  | [] => ([], [])
  | .ok e :: rest =>
    let r := processDocs rest
    (e :: r.1, r.2)
  | .error msg :: rest =>
    let r := processDocs rest
    (r.1, ("Failed to deserialize a document: " ++ msg) :: r.2)

/-- `enum Commands` from src/main.rs (clap subcommands). -/
inductive Commands where
  | List (content_type : ContentType)
  | Show (content_type : ContentType) (name : String)

/-- `fn main` from src/main.rs, modelled over the result of reading the file
(`none` = the read failed and `.expect` aborts the process with exit code 101;
`some docs` = the decode results of the documents in the file). Returns
(exit code, standard output, standard error lines). -/
def runMain (readResult : Option (List (Except String CatalogEntry)))
    (cmd : Commands) : Nat × String × List String :=
  match readResult with
  | none => (101, "", [])
  | some docs =>
    let r := processDocs docs
    let g := groupEntries r.1
    let out :=
      match cmd with
      | .List content_type => listHandler content_type g
      | .Show content_type name => showHandler content_type name g
    (0, out, r.2)

/-- Discriminates the entries that the grouping pass stores under package
name `p` in the `channels` map: Channel variants whose `package` field is `p`. -/
def chanPred (p : String) (e : CatalogEntry) : Bool :=
  match e with
  | .OpmChannel chan => decide (chan.package = p)
  | _ => false

/-- Discriminates Bundle variants whose `package` field is `p`. -/
def bundPred (p : String) (e : CatalogEntry) : Bool :=
  match e with
  | .OlmBundle bund => decide (bund.package = p)
  | _ => false

/-- Discriminates Package variants whose `name` field is `n`. -/
def pkgPred (n : String) (e : CatalogEntry) : Bool :=
  match e with
  | .OlmPackage pkg => decide (pkg.name = n)
  | _ => false

/-- The Channel entries of package `p`, in original document order. -/
def channelsOf (es : List CatalogEntry) (p : String) : List CatalogEntry :=
  es.filter (chanPred p)

/-- The Bundle entries of package `p`, in original document order. -/
def bundlesOf (es : List CatalogEntry) (p : String) : List CatalogEntry :=
  es.filter (bundPred p)

/-- The Package entries named `n`, in original document order. -/
def packagesOf (es : List CatalogEntry) (n : String) : List CatalogEntry :=
  es.filter (pkgPred n)

/-- The `name` field of an entry, whichever its variant. -/
def entryName : CatalogEntry → String
  | .OlmPackage pkg => pkg.name
  | .OpmChannel chan => chan.name
  | .OlmBundle bund => bund.name

/-- The payload extraction done by `if let CatalogEntry::OpmChannel(channel)`. -/
def chanOf : CatalogEntry → Option Channel
  | .OpmChannel chan => some chan
  | _ => none

/-- The payload extraction done by `if let CatalogEntry::OlmBundle(bundle)`. -/
def bundOf : CatalogEntry → Option Bundle
  | .OlmBundle bund => some bund
  | _ => none

/-- The channel of the end-to-end scenario in the spec (used as concrete input). -/
def demoChannel : Channel :=
  ⟨"stable", "etcd", [⟨"etcd.v1", "", [], none⟩]⟩

/-- The bundle of the end-to-end scenario in the spec (used as concrete input). -/
def demoBundle : Bundle :=
  ⟨"etcd.v1", "quay.io/etcd:v1", "etcd"⟩

/-- The decoded entries of the end-to-end scenario in the spec: one package
`etcd`, one channel `stable` of that package, one bundle `etcd.v1`. -/
def demoEntries : List CatalogEntry :=
  [.OlmPackage ⟨"etcd"⟩, .OpmChannel demoChannel, .OlmBundle demoBundle]

theorem lookupA_insertA {α : Type} (m : List (String × α)) (key q : String) (v : α) :
    lookupA (insertA m key v) q = if key = q then some v else lookupA m q := by
  induction m with
  | nil =>
    simp only [insertA, lookupA]
  | cons kv rest ih =>
    obtain ⟨k, w⟩ := kv
    by_cases hk : k = key
    · subst hk
      by_cases hq : k = q <;> simp [insertA, lookupA, hq]
    · by_cases hq : k = q
      · subst hq
        have hkey : ¬ key = k := fun h => hk h.symm
        simp [insertA, lookupA, hk, hkey]
      · simp [insertA, lookupA, hk, hq, ih]

theorem lookupA_pushA {α : Type} (m : List (String × List α)) (key q : String) (v : α) :
    lookupA (pushA m key v) q =
      if key = q then some ((lookupA m q).getD [] ++ [v]) else lookupA m q := by
  induction m with
  | nil =>
    by_cases hq : key = q <;> simp [pushA, lookupA, hq]
  | cons kv rest ih =>
    obtain ⟨k, l⟩ := kv
    by_cases hk : k = key
    · subst hk
      by_cases hq : k = q <;> simp [pushA, lookupA, hq]
    · by_cases hq : k = q
      · subst hq
        have hkey : ¬ key = k := fun h => hk h.symm
        simp [pushA, lookupA, hk, hkey]
      · simp [pushA, lookupA, hk, hq, ih]

theorem channels_foldl (es : List CatalogEntry) :
    ∀ (g : Groupings) (p : String),
      lookupA ((es.foldl addEntry g).channels) p =
        if channelsOf es p = [] then lookupA g.channels p
        else some ((lookupA g.channels p).getD [] ++ channelsOf es p) := by
  induction es with
  | nil =>
    intro g p
    simp [channelsOf]
  | cons e rest ih =>
    intro g p
    rw [List.foldl_cons, ih]
    cases e with
    | OlmPackage pkg =>
      simp [addEntry, channelsOf, chanPred, List.filter]
    | OlmBundle bund =>
      simp [addEntry, channelsOf, chanPred, List.filter]
    | OpmChannel chan =>
      by_cases hp : chan.package = p
      · subst hp
        have hfilter : channelsOf (CatalogEntry.OpmChannel chan :: rest) chan.package =
            CatalogEntry.OpmChannel chan :: channelsOf rest chan.package := by
          simp [channelsOf, List.filter, chanPred]
        rw [hfilter]
        have hlook : lookupA (addEntry g (CatalogEntry.OpmChannel chan)).channels chan.package =
            some ((lookupA g.channels chan.package).getD [] ++ [CatalogEntry.OpmChannel chan]) := by
          simp [addEntry, lookupA_pushA]
        by_cases hrest : channelsOf rest chan.package = []
        · simp [hrest, hlook]
        · simp [hrest, hlook]
      · have hfilter : channelsOf (CatalogEntry.OpmChannel chan :: rest) p =
            channelsOf rest p := by
          simp [channelsOf, List.filter, chanPred, hp]
        have hlook : lookupA (addEntry g (CatalogEntry.OpmChannel chan)).channels p =
            lookupA g.channels p := by
          simp [addEntry, lookupA_pushA, hp]
        rw [hfilter, hlook]

theorem bundles_foldl (es : List CatalogEntry) :
    ∀ (g : Groupings) (p : String),
      lookupA ((es.foldl addEntry g).bundles) p =
        if bundlesOf es p = [] then lookupA g.bundles p
        else some ((lookupA g.bundles p).getD [] ++ bundlesOf es p) := by
  induction es with
  | nil =>
    intro g p
    simp [bundlesOf]
  | cons e rest ih =>
    intro g p
    rw [List.foldl_cons, ih]
    cases e with
    | OlmPackage pkg =>
      simp [addEntry, bundlesOf, bundPred, List.filter]
    | OpmChannel chan =>
      simp [addEntry, bundlesOf, bundPred, List.filter]
    | OlmBundle bund =>
      by_cases hp : bund.package = p
      · subst hp
        have hfilter : bundlesOf (CatalogEntry.OlmBundle bund :: rest) bund.package =
            CatalogEntry.OlmBundle bund :: bundlesOf rest bund.package := by
          simp [bundlesOf, List.filter, bundPred]
        rw [hfilter]
        have hlook : lookupA (addEntry g (CatalogEntry.OlmBundle bund)).bundles bund.package =
            some ((lookupA g.bundles bund.package).getD [] ++ [CatalogEntry.OlmBundle bund]) := by
          simp [addEntry, lookupA_pushA]
        by_cases hrest : bundlesOf rest bund.package = []
        · simp [hrest, hlook]
        · simp [hrest, hlook]
      · have hfilter : bundlesOf (CatalogEntry.OlmBundle bund :: rest) p =
            bundlesOf rest p := by
          simp [bundlesOf, List.filter, bundPred, hp]
        have hlook : lookupA (addEntry g (CatalogEntry.OlmBundle bund)).bundles p =
            lookupA g.bundles p := by
          simp [addEntry, lookupA_pushA, hp]
        rw [hfilter, hlook]

theorem packages_foldl (es : List CatalogEntry) :
    ∀ (g : Groupings) (n : String),
      lookupA ((es.foldl addEntry g).packages) n =
        match (packagesOf es n).getLast? with
        | some e => some e
        | none => lookupA g.packages n := by
  induction es with
  | nil =>
    intro g n
    simp [packagesOf]
  | cons e rest ih =>
    intro g n
    rw [List.foldl_cons, ih]
    cases e with
    | OpmChannel chan =>
      simp [addEntry, packagesOf, pkgPred, List.filter]
    | OlmBundle bund =>
      simp [addEntry, packagesOf, pkgPred, List.filter]
    | OlmPackage pkg =>
      by_cases hn : pkg.name = n
      · have hfilter : packagesOf (CatalogEntry.OlmPackage pkg :: rest) n =
            CatalogEntry.OlmPackage pkg :: packagesOf rest n := by
          simp [packagesOf, List.filter, pkgPred, hn]
        have hlook : lookupA (addEntry g (CatalogEntry.OlmPackage pkg)).packages n =
            some (CatalogEntry.OlmPackage pkg) := by
          simp [addEntry, lookupA_insertA, hn]
        rw [hfilter, hlook]
        cases hrest : (packagesOf rest n).getLast? with
        | some x =>
          have hne : packagesOf rest n ≠ [] := by
            intro hnil
            rw [hnil] at hrest
            exact Option.noConfusion hrest
          obtain ⟨y, ys, hys⟩ := List.exists_cons_of_ne_nil hne
          rw [hys] at hrest ⊢
          simp [List.getLast?_cons_cons, hrest]
        | none =>
          have hnil : packagesOf rest n = [] :=
            List.getLast?_eq_none_iff.mp hrest
          rw [hnil]
          simp
      · have hfilter : packagesOf (CatalogEntry.OlmPackage pkg :: rest) n =
            packagesOf rest n := by
          simp [packagesOf, List.filter, pkgPred, hn]
        have hlook : lookupA (addEntry g (CatalogEntry.OlmPackage pkg)).packages n =
            lookupA g.packages n := by
          simp [addEntry, lookupA_insertA, hn]
        rw [hfilter, hlook]

theorem lookupA_groupEntries_channels (es : List CatalogEntry) (p : String) :
    lookupA (groupEntries es).channels p =
      if channelsOf es p = [] then none else some (channelsOf es p) := by
  rw [groupEntries, channels_foldl]
  by_cases h : channelsOf es p = [] <;> simp [h, lookupA]

theorem lookupA_groupEntries_bundles (es : List CatalogEntry) (p : String) :
    lookupA (groupEntries es).bundles p =
      if bundlesOf es p = [] then none else some (bundlesOf es p) := by
  rw [groupEntries, bundles_foldl]
  by_cases h : bundlesOf es p = [] <;> simp [h, lookupA]

theorem lookupListA_groupEntries_channels (es : List CatalogEntry) (p : String) :
    lookupListA (groupEntries es).channels p = channelsOf es p := by
  rw [lookupListA, lookupA_groupEntries_channels]
  by_cases h : channelsOf es p = [] <;> simp [h]

theorem lookupListA_groupEntries_bundles (es : List CatalogEntry) (p : String) :
    lookupListA (groupEntries es).bundles p = bundlesOf es p := by
  rw [lookupListA, lookupA_groupEntries_bundles]
  by_cases h : bundlesOf es p = [] <;> simp [h]

theorem lookupA_groupEntries_packages (es : List CatalogEntry) (n : String) :
    lookupA (groupEntries es).packages n = (packagesOf es n).getLast? := by
  rw [groupEntries, packages_foldl]
  cases (packagesOf es n).getLast? <;> simp [lookupA]

theorem lookupA_mem {α : Type} (m : List (String × α)) (k : String) (v : α)
    (h : lookupA m k = some v) : (k, v) ∈ m := by
  induction m with
  | nil => exact Option.noConfusion h
  | cons kv rest ih =>
    obtain ⟨k0, v0⟩ := kv
    by_cases hk : k0 = k
    · subst hk
      simp [lookupA] at h
      subst h
      exact List.mem_cons_self _ _
    · simp [lookupA, hk] at h
      exact List.mem_cons_of_mem _ (ih h)

theorem insertA_inv {α : Type} (P : String → α → Prop) (m : List (String × α))
    (key : String) (v : α) (hm : ∀ kv ∈ m, P kv.1 kv.2) (hv : P key v) :
    ∀ kv ∈ insertA m key v, P kv.1 kv.2 := by
  induction m with
  | nil =>
    intro kv hkv
    simp [insertA] at hkv
    subst hkv
    exact hv
  | cons kv0 rest ih =>
    obtain ⟨k0, v0⟩ := kv0
    by_cases hk : k0 = key
    · subst hk
      intro kv hkv
      simp only [insertA, if_pos rfl] at hkv
      rcases List.mem_cons.mp hkv with h | h
      · subst h
        exact hv
      · exact hm _ (List.mem_cons_of_mem _ h)
    · intro kv hkv
      simp only [insertA, if_neg hk] at hkv
      rcases List.mem_cons.mp hkv with h | h
      · subst h
        exact hm _ (List.mem_cons_self _ _)
      · exact ih (fun kv h => hm _ (List.mem_cons_of_mem _ h)) _ h

theorem pushA_inv {α : Type} (P : String → α → Prop) (m : List (String × List α))
    (key : String) (v : α)
    (hm : ∀ kv ∈ m, ∀ e ∈ kv.2, P kv.1 e) (hv : P key v) :
    ∀ kv ∈ pushA m key v, ∀ e ∈ kv.2, P kv.1 e := by
  induction m with
  | nil =>
    intro kv hkv e he
    simp [pushA] at hkv
    subst hkv
    simp at he
    subst he
    exact hv
  | cons kv0 rest ih =>
    obtain ⟨k0, l0⟩ := kv0
    by_cases hk : k0 = key
    · subst hk
      intro kv hkv e he
      simp only [pushA, if_pos rfl] at hkv
      rcases List.mem_cons.mp hkv with h | h
      · subst h
        simp only [List.mem_append, List.mem_singleton] at he
        rcases he with he | he
        · exact hm _ (List.mem_cons_self _ _) _ he
        · subst he
          exact hv
      · exact hm _ (List.mem_cons_of_mem _ h) _ he
    · intro kv hkv e he
      simp only [pushA, if_neg hk] at hkv
      rcases List.mem_cons.mp hkv with h | h
      · subst h
        exact hm _ (List.mem_cons_self _ _) _ he
      · exact ih (fun kv h => hm _ (List.mem_cons_of_mem _ h)) _ h _ he

/-- The three shape invariants of the grouping maps, for an arbitrary starting
state of the grouping fold. -/
theorem foldl_addEntry_inv (es : List CatalogEntry) :
    ∀ g : Groupings,
      ((∀ kv ∈ g.packages, ∃ p, kv.2 = CatalogEntry.OlmPackage p ∧ p.name = kv.1) →
        ∀ kv ∈ (es.foldl addEntry g).packages,
          ∃ p, kv.2 = CatalogEntry.OlmPackage p ∧ p.name = kv.1) ∧
      ((∀ kv ∈ g.channels, ∀ e ∈ kv.2, ∃ c, e = CatalogEntry.OpmChannel c ∧ c.package = kv.1) →
        ∀ kv ∈ (es.foldl addEntry g).channels, ∀ e ∈ kv.2,
          ∃ c, e = CatalogEntry.OpmChannel c ∧ c.package = kv.1) ∧
      ((∀ kv ∈ g.bundles, ∀ e ∈ kv.2, ∃ b, e = CatalogEntry.OlmBundle b ∧ b.package = kv.1) →
        ∀ kv ∈ (es.foldl addEntry g).bundles, ∀ e ∈ kv.2,
          ∃ b, e = CatalogEntry.OlmBundle b ∧ b.package = kv.1) := by
  induction es with
  | nil =>
    intro g
    exact ⟨fun h => h, fun h => h, fun h => h⟩
  | cons e rest ih =>
    intro g
    refine ⟨fun hp => ?_, fun hc => ?_, fun hb => ?_⟩
    · refine (ih (addEntry g e)).1 ?_
      cases e with
      | OlmPackage pkg =>
        exact insertA_inv
          (fun k v => ∃ p, v = CatalogEntry.OlmPackage p ∧ p.name = k)
          g.packages pkg.name _ hp ⟨pkg, rfl, rfl⟩
      | OpmChannel chan => exact hp
      | OlmBundle bund => exact hp
    · refine (ih (addEntry g e)).2.1 ?_
      cases e with
      | OlmPackage pkg => exact hc
      | OpmChannel chan =>
        exact pushA_inv
          (fun k e => ∃ c, e = CatalogEntry.OpmChannel c ∧ c.package = k)
          g.channels chan.package _ hc ⟨chan, rfl, rfl⟩
      | OlmBundle bund => exact hc
    · refine (ih (addEntry g e)).2.2 ?_
      cases e with
      | OlmPackage pkg => exact hb
      | OpmChannel chan => exact hb
      | OlmBundle bund =>
        exact pushA_inv
          (fun k e => ∃ b, e = CatalogEntry.OlmBundle b ∧ b.package = k)
          g.bundles bund.package _ hb ⟨bund, rfl, rfl⟩

theorem groupEntries_packages_inv (es : List CatalogEntry) :
    ∀ kv ∈ (groupEntries es).packages,
      ∃ p, kv.2 = CatalogEntry.OlmPackage p ∧ p.name = kv.1 :=
  (foldl_addEntry_inv es ⟨[], [], []⟩).1 (by intro kv h; exact absurd h (List.not_mem_nil kv))

theorem groupEntries_channels_inv (es : List CatalogEntry) :
    ∀ kv ∈ (groupEntries es).channels, ∀ e ∈ kv.2,
      ∃ c, e = CatalogEntry.OpmChannel c ∧ c.package = kv.1 :=
  (foldl_addEntry_inv es ⟨[], [], []⟩).2.1 (by intro kv h; exact absurd h (List.not_mem_nil kv))

theorem groupEntries_bundles_inv (es : List CatalogEntry) :
    ∀ kv ∈ (groupEntries es).bundles, ∀ e ∈ kv.2,
      ∃ b, e = CatalogEntry.OlmBundle b ∧ b.package = kv.1 :=
  (foldl_addEntry_inv es ⟨[], [], []⟩).2.2 (by intro kv h; exact absurd h (List.not_mem_nil kv))

theorem length_filterMap_of_isSome {α β : Type} (f : α → Option β) (l : List α)
    (h : ∀ e ∈ l, (f e).isSome = true) : (l.filterMap f).length = l.length := by
  induction l with
  | nil => rfl
  | cons a t ih =>
    have ha := h a (List.mem_cons_self a t)
    cases hf : f a with
    | none =>
      rw [hf] at ha
      exact absurd ha (by simp)
    | some b =>
      simp [List.filterMap_cons, hf, ih (fun e he => h e (List.mem_cons_of_mem _ he))]

theorem entryDisplay_spec (en : ChannelEntry) :
    entryDisplay en =
      "\n    - " ++ en.name
        ++ (if en.replaces ≠ "" then "\n      replaces: " ++ en.replaces else "")
        ++ (if en.skips ≠ [] then "\n      skips: " ++ debugStrList en.skips else "")
        ++ (match en.skip_range with
            | some range => "\n      skip_range: " ++ range
            | none => "") := by
  simp only [entryDisplay, gt_iff_lt, List.length_pos]

/-- C4: each document in the input stream is decoded independently; a document
that fails to decode produces a diagnostic line (with the parser message) on
the error stream and is skipped, parsing continues; the load result is the
ordered sequence of the successfully decoded entries in original document
order, and a run over such a stream still exits successfully. -/
theorem decode_per_document (docs : List (Except String CatalogEntry)) :
    (processDocs docs).1 = docs.filterMap Except.toOption ∧
    (processDocs docs).2 = docs.filterMap (fun d =>
      match d with
      | .error msg => some ("Failed to deserialize a document: " ++ msg)
      | .ok _ => none) ∧
    ∀ cmd, (runMain (some docs) cmd).1 = 0 := by
  refine ⟨?_, ?_, fun cmd => rfl⟩
  · induction docs with
    | nil => rfl
    | cons d rest ih =>
      cases d with
      | ok e => simp [processDocs, List.filterMap_cons, Except.toOption, ih]
      | error msg => simp [processDocs, List.filterMap_cons, Except.toOption, ih]
  · induction docs with
    | nil => rfl
    | cons d rest ih =>
      cases d with
      | ok e => simp [processDocs, List.filterMap_cons, ih]
      | error msg => simp [processDocs, List.filterMap_cons, ih]

/-- C5: List with a singular content type and Show with a plural content type
produce exactly the line `Unsupported content type` and nothing else. -/
theorem unsupported_content_type (g : Groupings) (n : String) :
    listHandler .Package g = "Unsupported content type\n" ∧
    listHandler .Channel g = "Unsupported content type\n" ∧
    listHandler .Bundle g = "Unsupported content type\n" ∧
    showHandler .Packages n g = "Unsupported content type\n" ∧
    showHandler .Channels n g = "Unsupported content type\n" ∧
    showHandler .Bundles n g = "Unsupported content type\n" :=
  ⟨rfl, rfl, rfl, rfl, rfl, rfl⟩

/-- C6: Show with a name that is absent from the relevant mapping prints
nothing — in particular a channel or bundle name that is not a package name,
since the `channels` and `bundles` maps are keyed by package name. -/
theorem show_absent_silent (g : Groupings) (n : String) :
    (lookupA g.packages n = none → showHandler .Package n g = "") ∧
    (lookupA g.channels n = none → showHandler .Channel n g = "") ∧
    (lookupA g.bundles n = none → showHandler .Bundle n g = "") := by
  refine ⟨fun h => ?_, fun h => ?_, fun h => ?_⟩ <;> simp [showHandler, h]

/-- C6 witness: in the spec's end-to-end catalog, `stable` is a channel name
but not a package name, so all three Show lookups print nothing. -/
theorem show_absent_silent_witness :
    showHandler .Package "stable" (groupEntries demoEntries) = "" ∧
    showHandler .Channel "stable" (groupEntries demoEntries) = "" ∧
    showHandler .Bundle "stable" (groupEntries demoEntries) = "" := by
  have h := show_absent_silent (groupEntries demoEntries) "stable"
  exact ⟨h.1 (by decide), h.2.1 (by decide), h.2.2 (by decide)⟩

/-- C8: the process exits non-zero when the input file cannot be read, before
any parsing; otherwise it exits zero regardless of the documents or the
selected command. -/
theorem exit_status (cmd : Commands) :
    0 < (runMain none cmd).1 ∧
    ∀ docs, (runMain (some docs) cmd).1 = 0 :=
  ⟨by simp [runMain], fun docs => rfl⟩

/-- C9: the query operations are pure functions of the groupings, so running
List or Show twice with identical arguments against the same loaded groupings
produces byte-identical output. -/
theorem query_idempotent (ct : ContentType) (n : String) (g : Groupings) :
    listHandler ct g = listHandler ct g ∧ showHandler ct n g = showHandler ct n g :=
  ⟨rfl, rfl⟩

/-- C1: after the grouping pass, every decoded Package has an entry in
`packages` under its own name; the channel sequence under each package name is
exactly the decoded Channels with that `package` field, in document order (so
each decoded Channel appears in it exactly as often as it was decoded); and
likewise for bundles. -/
theorem grouping_roundtrip (es : List CatalogEntry) :
    (∀ pkg : Package, CatalogEntry.OlmPackage pkg ∈ es →
      (lookupA (groupEntries es).packages pkg.name).isSome = true) ∧
    (∀ p, lookupListA (groupEntries es).channels p = channelsOf es p) ∧
    (∀ chan : Channel, CatalogEntry.OpmChannel chan ∈ es →
      (lookupListA (groupEntries es).channels chan.package).count
          (CatalogEntry.OpmChannel chan) = es.count (CatalogEntry.OpmChannel chan)) ∧
    (∀ p, lookupListA (groupEntries es).bundles p = bundlesOf es p) ∧
    (∀ bund : Bundle, CatalogEntry.OlmBundle bund ∈ es →
      (lookupListA (groupEntries es).bundles bund.package).count
          (CatalogEntry.OlmBundle bund) = es.count (CatalogEntry.OlmBundle bund)) := by
  refine ⟨fun pkg hmem => ?_, fun p => lookupListA_groupEntries_channels es p,
    fun chan hmem => ?_, fun p => lookupListA_groupEntries_bundles es p,
    fun bund hmem => ?_⟩
  · rw [lookupA_groupEntries_packages]
    have hin : CatalogEntry.OlmPackage pkg ∈ packagesOf es pkg.name :=
      List.mem_filter.mpr ⟨hmem, by simp [pkgPred]⟩
    rw [List.getLast?_isSome]
    exact List.ne_nil_of_mem hin
  · rw [lookupListA_groupEntries_channels, channelsOf]
    exact List.count_filter (by simp [chanPred])
  · rw [lookupListA_groupEntries_bundles, bundlesOf]
    exact List.count_filter (by simp [bundPred])

/-- C1 witness: the spec's end-to-end catalog, instantiated at its package,
channel and bundle. -/
theorem grouping_roundtrip_witness :
    (lookupA (groupEntries demoEntries).packages "etcd").isSome = true ∧
    (lookupListA (groupEntries demoEntries).channels "etcd").count
        (CatalogEntry.OpmChannel demoChannel)
      = demoEntries.count (CatalogEntry.OpmChannel demoChannel) ∧
    (lookupListA (groupEntries demoEntries).bundles "etcd").count
        (CatalogEntry.OlmBundle demoBundle)
      = demoEntries.count (CatalogEntry.OlmBundle demoBundle) := by
  have h := grouping_roundtrip demoEntries
  exact ⟨h.1 ⟨"etcd"⟩ (by decide),
    h.2.2.1 demoChannel (by decide),
    h.2.2.2.2 demoBundle (by decide)⟩

/-- C3: Show(Package, name) prints the pretty-Debug dump of the *last* Package
document with that name in document order (a later duplicate silently replaces
an earlier one in the `packages` map), and nothing when there is none. -/
theorem duplicate_package_last_wins (es : List CatalogEntry) (n : String) :
    showHandler .Package n (groupEntries es) =
      match (packagesOf es n).getLast? with
      | some (CatalogEntry.OlmPackage pkg) => pkgDebug pkg ++ "\n"
      | _ => "" := by
  have hl := lookupA_groupEntries_packages es n
  cases hlast : (packagesOf es n).getLast? with
  | none => simp [showHandler, hl, hlast]
  | some e =>
    have hmem : e ∈ packagesOf es n := by
      obtain ⟨ys, hys⟩ := List.getLast?_eq_some_iff.mp hlast
      rw [hys]
      exact List.mem_append_right ys (by simp)
    have hpred : pkgPred n e = true := (List.mem_filter.mp hmem).2
    cases e with
    | OlmPackage pkg => simp [showHandler, hl, hlast]
    | OpmChannel chan => simp [pkgPred] at hpred
    | OlmBundle bund => simp [pkgPred] at hpred

/-- C2: Show(Channel, name) treats `name` as a package name: it prints, for
every Channel stored under that package key (in insertion order, i.e. document
order), the block `Channel: <name>`, `  Package: <package>`, `  Entries:`,
then per entry a `    - <entry.name>` line, a `      replaces:` line only when
`replaces` is non-empty, a `      skips:` line with a literal list rendering
only when `skips` is non-empty, and a `      skip_range:` line only when
`skip_range` is present. -/
theorem show_channel_by_package (es : List CatalogEntry) (n : String) :
    showHandler .Channel n (groupEntries es) =
      String.join ((channelsOf es n).map (fun e =>
        match e with
        | CatalogEntry.OpmChannel chan =>
          "Channel: " ++ chan.name ++ "\n  Package: " ++ chan.package
            ++ "\n  Entries:"
            ++ String.join (chan.entries.map (fun en =>
                "\n    - " ++ en.name
                  ++ (if en.replaces ≠ "" then "\n      replaces: " ++ en.replaces
                      else "")
                  ++ (if en.skips ≠ [] then "\n      skips: " ++ debugStrList en.skips
                      else "")
                  ++ (match en.skip_range with
                      | some range => "\n      skip_range: " ++ range
                      | none => ""))) ++ "\n"
        | _ => "")) := by
  have hfun : ∀ e : CatalogEntry,
      (match e with
        | CatalogEntry.OpmChannel chan => channelDisplay chan ++ "\n"
        | _ => "") =
      (match e with
        | CatalogEntry.OpmChannel chan =>
          "Channel: " ++ chan.name ++ "\n  Package: " ++ chan.package
            ++ "\n  Entries:"
            ++ String.join (chan.entries.map (fun en =>
                "\n    - " ++ en.name
                  ++ (if en.replaces ≠ "" then "\n      replaces: " ++ en.replaces
                      else "")
                  ++ (if en.skips ≠ [] then "\n      skips: " ++ debugStrList en.skips
                      else "")
                  ++ (match en.skip_range with
                      | some range => "\n      skip_range: " ++ range
                      | none => ""))) ++ "\n"
        | _ => "") := by
    intro e
    cases e with
    | OpmChannel chan =>
      have hmap : chan.entries.map entryDisplay =
          chan.entries.map (fun en =>
            "\n    - " ++ en.name
              ++ (if en.replaces ≠ "" then "\n      replaces: " ++ en.replaces
                  else "")
              ++ (if en.skips ≠ [] then "\n      skips: " ++ debugStrList en.skips
                  else "")
              ++ (match en.skip_range with
                  | some range => "\n      skip_range: " ++ range
                  | none => "")) :=
        List.map_congr_left (fun en _ => entryDisplay_spec en)
      simp only [channelDisplay, hmap]
    | OlmPackage pkg => rfl
    | OlmBundle bund => rfl
  by_cases h : channelsOf es n = []
  · simp [showHandler, lookupA_groupEntries_channels, h]
    rfl
  · have hl : lookupA (groupEntries es).channels n = some (channelsOf es n) := by
      rw [lookupA_groupEntries_channels]
      simp [h]
    simp only [showHandler, hl]
    exact congrArg String.join (List.map_congr_left (fun e _ => hfun e))

/-- C7: List(Channels) prints the `Channels:` header and then one `- <name>`
line per Channel entry, iterating the package groups of the `channels` map in
turn; the sequence under each package key is the decoded Channels of that
package in insertion (document) order. -/
theorem list_channels_by_group (es : List CatalogEntry) :
    listHandler .Channels (groupEntries es) =
      "Channels:\n" ++ String.join ((groupEntries es).channels.map (fun kv =>
        String.join (kv.2.map (fun e => "- " ++ entryName e ++ "\n")))) ∧
    ∀ p, lookupListA (groupEntries es).channels p = channelsOf es p := by
  constructor
  · simp only [listHandler]
    refine congrArg ("Channels:\n" ++ ·) (congrArg String.join ?_)
    refine List.map_congr_left (fun kv hkv => congrArg String.join ?_)
    refine List.map_congr_left (fun e he => ?_)
    obtain ⟨chan, rfl, hpk⟩ := groupEntries_channels_inv es kv hkv e he
    rfl
  · exact fun p => lookupListA_groupEntries_channels es p

/-- C10: the grouping pass establishes that every value in `packages` is a
Package named after its key, every element of a `channels` sequence is a
Channel whose `package` field is its key, and every element of a `bundles`
sequence is a Bundle whose `package` field is its key; consequently the
variant filters in the handlers never drop an entry of a stored sequence. -/
theorem grouping_invariant (es : List CatalogEntry) :
    (∀ kv ∈ (groupEntries es).packages,
      ∃ p, kv.2 = CatalogEntry.OlmPackage p ∧ p.name = kv.1) ∧
    (∀ kv ∈ (groupEntries es).channels, ∀ e ∈ kv.2,
      ∃ c, e = CatalogEntry.OpmChannel c ∧ c.package = kv.1) ∧
    (∀ kv ∈ (groupEntries es).bundles, ∀ e ∈ kv.2,
      ∃ b, e = CatalogEntry.OlmBundle b ∧ b.package = kv.1) ∧
    (∀ kv ∈ (groupEntries es).channels,
      (kv.2.filterMap chanOf).length = kv.2.length) ∧
    (∀ kv ∈ (groupEntries es).bundles,
      (kv.2.filterMap bundOf).length = kv.2.length) := by
  refine ⟨groupEntries_packages_inv es, groupEntries_channels_inv es,
    groupEntries_bundles_inv es, fun kv hkv => ?_, fun kv hkv => ?_⟩
  · refine length_filterMap_of_isSome chanOf kv.2 (fun e he => ?_)
    obtain ⟨chan, rfl, hpk⟩ := groupEntries_channels_inv es kv hkv e he
    rfl
  · refine length_filterMap_of_isSome bundOf kv.2 (fun e he => ?_)
    obtain ⟨bund, rfl, hpk⟩ := groupEntries_bundles_inv es kv hkv e he
    rfl

/-- C10 witness: concrete map entries of the grouped end-to-end catalog. -/
theorem grouping_invariant_witness :
    (∃ p, CatalogEntry.OlmPackage ⟨"etcd"⟩ = CatalogEntry.OlmPackage p ∧
      p.name = "etcd") ∧
    (∃ c, CatalogEntry.OpmChannel demoChannel = CatalogEntry.OpmChannel c ∧
      c.package = "etcd") ∧
    (∃ b, CatalogEntry.OlmBundle demoBundle = CatalogEntry.OlmBundle b ∧
      b.package = "etcd") ∧
    ([CatalogEntry.OpmChannel demoChannel].filterMap chanOf).length =
      [CatalogEntry.OpmChannel demoChannel].length := by
  have h := grouping_invariant demoEntries
  refine ⟨h.1 ("etcd", CatalogEntry.OlmPackage ⟨"etcd"⟩) (by decide),
    h.2.1 ("etcd", [CatalogEntry.OpmChannel demoChannel]) (by decide)
      (CatalogEntry.OpmChannel demoChannel) (by decide),
    h.2.2.1 ("etcd", [CatalogEntry.OlmBundle demoBundle]) (by decide)
      (CatalogEntry.OlmBundle demoBundle) (by decide),
    h.2.2.2.1 ("etcd", [CatalogEntry.OpmChannel demoChannel]) (by decide)⟩

end OlmCatalog
